import Mathlib

/-! Partitioned convolution (`fx/Convolver.cpp`).

A shallow embedding of `Convolver` (the multi-partition orchestrator) over exact
integer samples.

* Samples (`sample_t`, a float) are integers here; every arithmetic step of the
  orchestrator is an addition, so the embedding is exact arithmetic.
* `int` quantities (`length`, positions, sizes) are natural numbers, so lengths are
  not negative; the one signed comparison `m_writePosition > m_bufLength - length` is
  written without subtraction.  Sums of indices stay below `2 * bufLength`
  (`WellFormed.position_sum_lt`), and the theorems about streams of calls ask for
  `bufLength ≤ 2 ^ 30`, so that no `int` overflows.
* The caller's `buffer` is a list; a call is meant with at least `length` samples in it.
* `m_inBuffer` comes from `malloc`; it starts as zeros here, and only the samples
  staged by a call are ever read.
* The two float expressions (the size of the accumulation buffer and the share of a
  worker) are evaluated in binary32, rounding to nearest with ties to even; a
  conversion from `float` to `int` whose value is not an `int` is undefined in C++ and
  has no result here.
* Worker threads: the workers spawned by a call are run to completion at their spawn
  point, one after the other in the order of their ids.  This is the outcome of the
  sources when `partitionCount * M ≤ bufLength`: then no index written by a worker lies
  in the block the caller adds to and hands back (`WellFormed.position_outside_block`),
  the workers write pairwise different indices (`WellFormed.position_injective`), and
  they are joined before the next call changes anything they read.  With a shorter
  buffer the workers of the sources race with the caller, and the theorems about
  streams of calls assume that the buffer is long enough.
* `m_fftOutBuffers[k]` is scratch memory: `FFTConvolver::getNext` fills its first
  `length` samples and the loop that follows reads exactly those samples (when the
  call fails, `length` has become `0` and nothing is read), so the block is passed
  as a value.
-/

namespace Convolver

/-! ## Memory helpers -/

/-- The call `std::memcpy(dst, src, n)` for a valid source: the first `n` samples of
`dst` are replaced by the first `n` samples of `src`. -/
def copyInto (dst src : List Int) (n : Nat) : List Int :=
  src.take n ++ dst.drop n

/-- The call `std::memset(buf + start, 0, n)`: the samples at `start .. start + n - 1`
become zero. -/
def zeroRange (buf : List Int) (start n : Nat) : List Int :=
  buf.take start ++ List.replicate (min n (buf.length - start)) 0 ++ buf.drop (start + n)

/-- The statement `buf[pos] += v`. -/
def addAt : List Int → Nat → Int → List Int
  | [], _, _ => []
  | x :: xs, 0, v => (x + v) :: xs
  | x :: xs, n + 1, v => x :: addAt xs n v

/-- The ceiling of `a / b` over the integers.  This is the value the expressions
`std::ceil((float)a / (float)b)` of the sources stand for; what the sources compute is
`ceilQuot (toFloat a) (toFloat b)`, which agrees with it when `a < 2 ^ 24` and
`1 ≤ b ≤ 2 ^ 24`. -/
def ceilDiv (a b : Nat) : Nat :=
  (a + b - 1) / b

/-! ## Binary32 arithmetic on non-negative integers

The float expressions of the sources work on non-negative integers and their
quotients.  A `float` holding an integer is represented by that integer; every
operation rounds to 24 significant binary digits, a tie going to the even neighbour.
`std::ceil` of a `float` is a `float`, so the products that follow it are binary32
products as well.  Neither the binary32 overflow threshold nor the subnormal range is
within reach of `int` operands. -/

/-- The quotient `p / q` rounded to the nearest integer, a tie going to the even one. -/
def roundHalfEven (p q : Nat) : Nat :=
  if 2 * (p % q) < q then p / q
  else if q < 2 * (p % q) then p / q + 1
  else if (p / q) % 2 = 0 then p / q else p / q + 1

/-- The number of binary digits of `n`, found by halving at most `fuel` times. -/
def bitLength : Nat → Nat → Nat
  | 0, _ => 0
  | fuel + 1, n => if n = 0 then 0 else bitLength fuel (n / 2) + 1

/-- The number of binary digits of `n`. -/
def bits (n : Nat) : Nat :=
  bitLength n n

/-- The conversion `(float)n` of a non-negative `int`, and the rounding of any integer
result: up to `2 ^ 24` every integer is a `float`; above, the value is rounded to a
multiple of `2 ^ (bits n - 24)`. -/
def toFloat (n : Nat) : Nat :=
  if n ≤ 2 ^ 24 then n
  else roundHalfEven n (2 ^ (bits n - 24)) * 2 ^ (bits n - 24)

/-- The value of `std::ceil(a / b)` for two floats `a` and `b > 0` holding integers: the
quotient is scaled by the power of two that brings it into `[2 ^ 23, 2 ^ 24)`, rounded
there to an integer, scaled back, and the ceiling of that float is taken. -/
def ceilQuot (a b : Nat) : Nat :=
  if a = 0 then 0
  else if bits a ≤ 23 + bits b then
    let s := if 2 ^ 23 * b ≤ a * 2 ^ (23 + bits b - bits a) then 23 + bits b - bits a
      else 23 + bits b - bits a + 1
    (roundHalfEven (a * 2 ^ s) b + 2 ^ s - 1) / 2 ^ s
  else
    let t := if 2 ^ 23 * (b * 2 ^ (bits a - 23 - bits b)) ≤ a then bits a - 23 - bits b
      else bits a - 23 - bits b - 1
    roundHalfEven a (b * 2 ^ t) * 2 ^ t

/-- What stops a call: a read through the null pointer. -/
inductive Fault where
  | nullRead
  deriving DecidableEq, Repr

/-- The call `std::memcpy(dst, src, n)` where `src` may be the null pointer (`none`):
copying `n > 0` samples out of the null pointer is a fault. -/
def memcpy (dst : List Int) (src : Option (List Int)) (n : Nat) : Except Fault (List Int) :=
  match src with
  | some data => Except.ok (copyInto dst data n)
  | none => if n = 0 then Except.ok dst else Except.error Fault.nullRead

/-! ## The single-partition convolver -/

/-- State of one `FFTConvolver`: its segment and the buffered overlap.  The segment is
kept as the `M` time-domain samples whose transform `m_irBuffer` holds. -/
structure FFTConvolver where
  irBuffer : List Int
  M : Nat
  L : Nat
  N : Nat
  tail : List Int
  deriving DecidableEq, Repr

/-- Modelled from the spec: the product of two transforms of size `N`, transformed
back, which is the cyclic convolution of size `N` of the two zero-padded sequences
(the transform provider `FFTPlan` is not part of the sources). -/
def cyclicConvolution (N : Nat) (x h : List Int) : List Int :=
  (List.range N).map fun n =>
    ((List.range N).map fun k => x.getD k 0 * h.getD ((n + N - k) % N) 0).sum

/-- Modelled from the spec: the constructor of `FFTConvolver` (`FFTConvolver.cpp` is
not part of the sources); a new convolver has no buffered tail. -/
def FFTConvolver.new (ir : List Int) (M L N : Nat) : FFTConvolver :=
  { irBuffer := ir, M := M, L := L, N := N, tail := [] }

/-- Modelled from the spec: `FFTConvolver::getNext(inBuffer, outBuffer, length)`, whose
body (`FFTConvolver.cpp`) is not part of the sources.  Section 4.1: a `length` above
`L` writes nothing and reports length zero; otherwise the input is zero-padded to `N`,
transformed, multiplied with the segment and transformed back, the buffered tail is
added to the front of the result, the first `length` samples are the output and the
remainder, up to `M - 1` samples, is the new tail.  Returns the convolver, the samples
written to `outBuffer` and the value left in `length`. -/
def FFTConvolver.getNext (c : FFTConvolver) (inBuffer : List Int) (length : Nat) :
    FFTConvolver × List Int × Nat :=
  if length > c.L then (c, [], 0)
  else
    let product := cyclicConvolution c.N (inBuffer.take length) c.irBuffer
    let result := (List.range c.N).map fun n => product.getD n 0 + c.tail.getD n 0
    ({ c with tail := (result.drop length).take (c.M - 1) }, result.take length, length)

/-- Modelled from the spec: `FFTConvolver::clear()` (declared in `FFTConvolver.h`, body
not part of the sources) discards the buffered tail. -/
def FFTConvolver.clear (c : FFTConvolver) : FFTConvolver :=
  { c with tail := [] }

end Convolver

/-! ## The orchestrator -/

/-- The value of `#define MAX_NUM_THREADS 2`. -/
def MAX_NUM_THREADS : Nat := 2

/-- The members of `Convolver` that the methods read or write. -/
structure Convolver where
  M : Nat
  L : Nat
  N : Nat
  irLength : Nat
  fftConvolvers : List Convolver.FFTConvolver
  bufLength : Nat
  outBuffer : List Int
  inBuffer : List Int
  inLength : Nat
  readPosition : Nat
  writePosition : Nat
  numThreads : Nat
  resetFlag : Bool
  deriving DecidableEq, Repr

namespace Convolver

/-- The constructor `Convolver::Convolver(ir, N, irLength, measure)`, with the value of
`MAX_NUM_THREADS` as the parameter `maxNumThreads`; `N` and `irLength` are the values
of non-negative `int`s.  The size of the accumulation buffer is
`(int)(std::ceil((float)irLength / (float)m_L) * m_L * 2)`, a binary32 computation.
No object results in three cases: with no segment at all `m_numThreads` is
`min(MAX_NUM_THREADS, -1) = -1` and `std::vector<std::thread>(-1)` throws; with
`N < 2` the divisor `m_L` is zero, the product is not a number and its conversion to
`int` is undefined; and so is the conversion of a product of `2 ^ 31` or more. -/
def new (maxNumThreads : Nat) (ir : List (List Int)) (N irLength : Nat) : Option Convolver :=
  if ir.length = 0 then none
  else if N / 2 = 0 then none
  else
    let bufLength :=
      toFloat (toFloat (ceilQuot (toFloat irLength) (toFloat (N / 2)) * toFloat (N / 2)) * 2)
    if 2 ^ 31 ≤ bufLength then none
    else
      some
        { M := N / 2
          L := N / 2
          N := N
          irLength := irLength
          fftConvolvers := ir.map fun seg => FFTConvolver.new seg (N / 2) (N / 2) N
          bufLength := bufLength
          outBuffer := List.replicate bufLength 0
          inBuffer := List.replicate (N / 2) 0
          inLength := 0
          readPosition := 0
          writePosition := 0
          numThreads := min maxNumThreads (ir.length - 1)
          resetFlag := false }

/-- The index computed in the inner loop of `threadFunction` for partition `i` and
sample `j`: `position = j + m_writePosition + i*m_M`, less `m_bufLength` when it is
not below `m_bufLength`. -/
def position (s : Convolver) (i j : Nat) : Nat :=
  let delay := i * s.M
  let position := j + s.writePosition + delay
  if position ≥ s.bufLength then position - s.bufLength else position

/-- The inner loop of `threadFunction`:
`for j < m_inLength: m_outBuffer[position] += m_fftOutBuffers[id+1][j]`. -/
def accumulate (s : Convolver) (i : Nat) (fftOut : List Int) : Convolver :=
  { s with
    outBuffer := (List.range s.inLength).foldl
      (fun buf j => addAt buf (position s i j) (fftOut.getD j 0)) s.outBuffer }

/-- One pass through the body of the `for` loop of `threadFunction` for partition `i`;
the flag returned tells that the loop was left through `i = end`. -/
def partitionStep (s : Convolver) (i : Nat) : Convolver × Bool :=
  match s.fftConvolvers.get? i with
  | none => (s, false)
  | some c =>
    let r := c.getNext s.inBuffer s.inLength
    let s1 := { s with fftConvolvers := s.fftConvolvers.set i r.1, inLength := r.2.2 }
    if s1.resetFlag then ({ s1 with resetFlag := false }, true)
    else (accumulate s1 i r.2.1, false)

/-- The `for (i = start; i < end; i++)` loop of `threadFunction` over the partitions
still to visit. -/
def threadLoop (s : Convolver) : List Nat → Convolver
  | [] => s
  | i :: rest =>
    let r := partitionStep s i
    if r.2 then r.1 else threadLoop r.1 rest

/-- The variable `share` of `threadFunction`:
`std::ceil(((float)total - 1) / (float)m_numThreads)`, a binary32 computation, for
`total ≥ 1` partitions and `m_numThreads ≥ 1` workers (no worker runs otherwise).  The
value is an integer of at most `(float)total`, which its conversion to `int` keeps. -/
def share (total numThreads : Nat) : Nat :=
  ceilQuot (toFloat (toFloat total - 1)) (toFloat numThreads)

/-- The variable `start` of `threadFunction`. -/
def start (total numThreads id : Nat) : Nat :=
  id * share total numThreads + 1

/-- The variable `end` of `threadFunction`. -/
def stop (total numThreads id : Nat) : Nat :=
  min (start total numThreads id + share total numThreads) total

/-- The partitions `start, start + 1, .., end - 1` visited by worker `id`. -/
def workerRange (total numThreads id : Nat) : List Nat :=
  List.range' (start total numThreads id) (stop total numThreads id - start total numThreads id)

/-- The method `Convolver::threadFunction(id)`. -/
def threadFunction (s : Convolver) (id : Nat) : Convolver :=
  threadLoop s (workerRange s.fftConvolvers.length s.numThreads id)

/-- The workers `0 .. m_threads.size() - 1` started by `getNext`, each run to its end. -/
def runThreads (s : Convolver) : Convolver :=
  (List.range s.numThreads).foldl threadFunction s

/-- The lines `m_writePosition += m_inLength; if (m_writePosition > m_bufLength - length)
.. else if (m_writePosition == m_bufLength / 2) ..` of `getNext`. -/
def advance (s : Convolver) (length : Nat) : Convolver :=
  let writePosition := s.writePosition + s.inLength
  if s.bufLength < writePosition + length then
    { s with
      writePosition := 0
      outBuffer := zeroRange s.outBuffer (s.bufLength / 2) (s.bufLength / 2) }
  else if writePosition = s.bufLength / 2 then
    { s with
      writePosition := writePosition
      outBuffer := zeroRange s.outBuffer 0 (s.bufLength / 2) }
  else { s with writePosition := writePosition }

/-- The method `Convolver::getNext(buffer, length)`.  Returns the object, the caller's
buffer and the value left in `length`.  The workers are run where the sources start
them (see the note on worker threads at the head of the file); an object has at least
one partition, and for the empty list, which the constructor never builds, the call is
left without effect. -/
def getNext (s : Convolver) (buffer : List Int) (length : Nat) : Convolver × List Int × Nat :=
  if length > s.L then (s, buffer, 0)
  else
    match s.fftConvolvers with
    | [] => (s, buffer, length)
    | c0 :: rest =>
      let r := c0.getNext buffer length
      let length := r.2.2
      let s1 := advance { s with fftConvolvers := r.1 :: rest } length
      let s2 := { s1 with inLength := length, inBuffer := copyInto s1.inBuffer buffer length }
      let s3 := runThreads s2
      let s4 := { s3 with
        outBuffer := (List.range length).foldl
          (fun buf i => addAt buf (i + s3.writePosition) (r.2.1.getD i 0)) s3.outBuffer }
      let s5 := { s4 with readPosition := s4.writePosition }
      (s5, copyInto buffer (s5.outBuffer.drop s5.readPosition) length, length)

/-- The method `Convolver::reset()`.  Its last statement before the unlock is
`std::memcpy(m_outBuffer, 0, m_bufLength*sizeof(sample_t))`, a copy out of the null
pointer. -/
def reset (s : Convolver) : Except Fault Convolver :=
  let s1 := { s with resetFlag := true, inLength := 0, readPosition := 0, writePosition := 0 }
  match memcpy s1.outBuffer none s1.bufLength with
  | Except.ok buf => Except.ok { s1 with outBuffer := buf }
  | Except.error e => Except.error e

/-- A stream of calls of `getNext`, one per block, each with `length` the size of the
block; returns the final object and the blocks handed back. -/
def pushBlocks (s : Convolver) : List (List Int) → Convolver × List (List Int)
  | [] => (s, [])
  | b :: bs =>
    let r := getNext s b b.length
    let rs := pushBlocks r.1 bs
    (rs.1, r.2.1.take r.2.2 :: rs.2)

/-- The direct linear convolution of `x` with `h`: sample `n` is the sum of
`x[k] * h[n - k]` over `k ≤ n`. -/
def directConvolution (x h : List Int) (n : Nat) : Int :=
  ((List.range (n + 1)).map fun k => x.getD k 0 * h.getD (n - k) 0).sum

/-! ## Objects used in the concrete scenarios and in the proofs -/

/-- The direct convolution of `x` with `h` behind a pipeline delay of `d` samples, cut to
the first `n` samples. -/
def delayedConvolution (x h : List Int) (d n : Nat) : List Int :=
  (List.range n).map fun t => if t < d then 0 else directConvolution x h (t - d)

/-- The object built by `Convolver(ir, 8, 12)` from the three pure delays. -/
def pureDelays : Convolver :=
  { M := 4, L := 4, N := 8, irLength := 12
    fftConvolvers :=
      [FFTConvolver.new [1, 0, 0, 0] 4 4 8, FFTConvolver.new [0, 1, 0, 0] 4 4 8,
        FFTConvolver.new [0, 0, 1, 0] 4 4 8]
    bufLength := 24
    outBuffer := List.replicate 24 0
    inBuffer := List.replicate 4 0
    inLength := 0, readPosition := 0, writePosition := 0, numThreads := 2, resetFlag := false }

/-- The object built by `Convolver(ir, 8, 4)` from the single segment `seg`. -/
def single (seg : List Int) : Convolver :=
  { M := 4, L := 4, N := 8, irLength := 4
    fftConvolvers := [FFTConvolver.new seg 4 4 8]
    bufLength := 8
    outBuffer := List.replicate 8 0
    inBuffer := List.replicate 4 0
    inLength := 0, readPosition := 0, writePosition := 0, numThreads := 0, resetFlag := false }

/-- The object built by `Convolver(ir, 8, 8)` from the segments `[1,0,0,0]` and
`[1,0,0,0]`: the impulse response `[1,0,0,0,1,0,0,0]`. -/
def echo : Convolver :=
  { M := 4, L := 4, N := 8, irLength := 8
    fftConvolvers := [FFTConvolver.new [1, 0, 0, 0] 4 4 8, FFTConvolver.new [1, 0, 0, 0] 4 4 8]
    bufLength := 16
    outBuffer := List.replicate 16 0
    inBuffer := List.replicate 4 0
    inLength := 0, readPosition := 0, writePosition := 0, numThreads := 1, resetFlag := false }

/-- The six blocks of three samples pushed through `echo`: a single `1` at sample 11. -/
def echoBlocks : List (List Int) :=
  [[0, 0, 0], [0, 0, 0], [0, 0, 0], [0, 0, 1], [0, 0, 0], [0, 0, 0]]

/-- The states an object goes through: the one built by the constructor and whatever
a call of `getNext` leaves. -/
inductive Reachable (s0 : Convolver) : Convolver → Prop where
  | init : Reachable s0 s0
  | step {s : Convolver} (buffer : List Int) (length : Nat) :
      Reachable s0 s → Reachable s0 (getNext s buffer length).1

/-- The members that the workers and the caller's additions leave as they are, with the
block length of every partition convolver and the size of the accumulation buffer. -/
def shape (s : Convolver) : Nat × Nat × Nat × Nat × Nat × Nat × Nat × List Nat :=
  (s.M, s.L, s.bufLength, s.writePosition, s.inLength, s.numThreads, s.outBuffer.length,
    s.fftConvolvers.map fun c => c.L)

/-- What every reachable state satisfies when the accumulation buffer built by the
constructor holds a block and the delay `(partitionCount - 1) * M` of the last
partition. -/
structure WellFormed (s : Convolver) : Prop where
  M_eq : s.M = s.L
  parts : 1 ≤ s.fftConvolvers.length
  block : s.L ≤ s.bufLength
  reach : (s.fftConvolvers.length - 1) * s.L ≤ s.bufLength
  out : s.outBuffer.length = s.bufLength
  staged : s.inLength ≤ s.L
  pos : s.writePosition + s.inLength ≤ s.bufLength
  blocks : ∀ c ∈ s.fftConvolvers, c.L = s.L

/-- The object with the number of workers forgotten. -/
def eraseThreads (s : Convolver) : Convolver :=
  { s with numThreads := 0 }

/-- The partitions of `l` visited one after the other when no reset is pending. -/
def visit (s : Convolver) (l : List Nat) : Convolver :=
  l.foldl (fun t i => (partitionStep t i).1) s

/-- The part of an accepted call before the workers start: the write position is
advanced and the block is staged. -/
def stage (s : Convolver) (c0 : FFTConvolver) (rest : List FFTConvolver) (buffer : List Int)
    (length : Nat) : Convolver :=
  { advance { s with fftConvolvers := c0 :: rest } length with
    inLength := length
    inBuffer := copyInto (advance { s with fftConvolvers := c0 :: rest } length).inBuffer
      buffer length }

/-- The part of an accepted call after the workers were started: the block of the first
partition is added at the write position and the block there is handed back. -/
def finish (s : Convolver) (fftOut buffer : List Int) (length : Nat) :
    Convolver × List Int × Nat :=
  ({ s with
      outBuffer := (List.range length).foldl
        (fun buf i => addAt buf (i + s.writePosition) (fftOut.getD i 0)) s.outBuffer
      readPosition := s.writePosition },
    copyInto buffer
      (((List.range length).foldl
        (fun buf i => addAt buf (i + s.writePosition) (fftOut.getD i 0)) s.outBuffer).drop
        s.writePosition) length,
    length)

/-! # Theorems -/

/-! ## Binary32 arithmetic: where it is exact -/

theorem bitLength_zero (fuel : Nat) : bitLength fuel 0 = 0 := by
  cases fuel <;> simp [bitLength]

theorem bitLength_spec (fuel n : Nat) (h : n ≤ fuel) :
    n < 2 ^ bitLength fuel n ∧ (1 ≤ n → 2 ^ (bitLength fuel n - 1) ≤ n) := by
  induction fuel generalizing n with
  | zero =>
    have : n = 0 := by omega
    subst this
    simp [bitLength]
  | succ fuel ih =>
    by_cases hn : n = 0
    · subst hn
      simp [bitLength]
    · obtain ⟨h1, h2⟩ := ih (n / 2) (by omega)
      simp only [bitLength, hn, if_false, Nat.add_sub_cancel]
      refine ⟨?_, fun _ => ?_⟩
      · rw [pow_succ]
        omega
      · by_cases h0 : n / 2 = 0
        · rw [h0, bitLength_zero]
          simp
          omega
        · have h3 := h2 (by omega)
          have hb : 1 ≤ bitLength fuel (n / 2) := by
            by_contra hc
            have : bitLength fuel (n / 2) = 0 := by omega
            rw [this] at h1
            simp at h1
            exact h0 h1
          have e : bitLength fuel (n / 2) = (bitLength fuel (n / 2) - 1) + 1 := by omega
          rw [e, pow_succ]
          omega

theorem lt_two_pow_bits (n : Nat) : n < 2 ^ bits n :=
  (bitLength_spec n n (Nat.le_refl n)).1

theorem two_pow_bits_le (n : Nat) (h : 1 ≤ n) : 2 ^ (bits n - 1) ≤ n :=
  (bitLength_spec n n (Nat.le_refl n)).2 h

theorem roundHalfEven_le (p q n : Nat) (hq : 0 < q) (h : p ≤ n * q) :
    roundHalfEven p q ≤ n := by
  have h1 := Nat.div_add_mod p q
  have h2 := Nat.mod_lt p hq
  have e : q * (p / q) = p / q * q := Nat.mul_comm _ _
  have hf : p / q ≤ n := by
    by_contra hc
    have : (n + 1) * q ≤ p / q * q := Nat.mul_le_mul_right q (by omega)
    rw [Nat.succ_mul] at this
    omega
  have hf1 : 1 ≤ p % q → p / q + 1 ≤ n := by
    intro hr
    by_contra hc
    have : n * q ≤ p / q * q := Nat.mul_le_mul_right q (by omega)
    omega
  unfold roundHalfEven
  split_ifs
  · exact hf
  · exact hf1 (by omega)
  · exact hf
  · exact hf1 (by omega)

theorem lt_roundHalfEven (p q n : Nat) (hq : 0 < q) (h : (2 * n + 1) * q < 2 * p) :
    n < roundHalfEven p q := by
  have h1 := Nat.div_add_mod p q
  have h2 := Nat.mod_lt p hq
  have e : q * (p / q) = p / q * q := Nat.mul_comm _ _
  have e2 : (2 * n + 1) * q = 2 * (n * q) + q := by ring
  have hA : n ≤ p / q := by
    by_contra hc
    have : (p / q + 1) * q ≤ n * q := Nat.mul_le_mul_right q (by omega)
    rw [Nat.succ_mul] at this
    omega
  have hB : 2 * (p % q) ≤ q → n < p / q := by
    intro hr
    by_contra hc
    have hn : p / q = n := by omega
    rw [hn] at e h1
    omega
  unfold roundHalfEven
  split_ifs
  · exact hB (by omega)
  · omega
  · exact hB (by omega)
  · omega

theorem ceilDiv_bounds (a b : Nat) (hb : 1 ≤ b) (ha : 1 ≤ a) :
    1 ≤ ceilDiv a b ∧ a ≤ ceilDiv a b * b ∧ (ceilDiv a b - 1) * b < a := by
  unfold ceilDiv
  have h1 := Nat.div_add_mod (a + b - 1) b
  have h2 := Nat.mod_lt (a + b - 1) (show b > 0 by omega)
  have e : b * ((a + b - 1) / b) = (a + b - 1) / b * b := Nat.mul_comm _ _
  have hk : 1 ≤ (a + b - 1) / b := Nat.div_pos (by omega) (by omega)
  refine ⟨hk, by omega, ?_⟩
  have e3 : ((a + b - 1) / b - 1) * b = (a + b - 1) / b * b - b := Nat.sub_one_mul _ _
  omega

theorem toFloat_of_le (n : Nat) (h : n ≤ 2 ^ 24) : toFloat n = n := by
  unfold toFloat
  rw [if_pos h]

/-- The float quotient of two integers below `2 ^ 24` is close enough to the quotient
for its ceiling to be the ceiling of the quotient. -/
theorem ceilQuot_exact (a b : Nat) (hb : 1 ≤ b) (ha : a < 2 ^ 24) :
    ceilQuot a b = ceilDiv a b := by
  by_cases ha0 : a = 0
  · subst ha0
    have : ceilDiv 0 b = 0 := by
      unfold ceilDiv
      apply Nat.div_eq_of_lt
      omega
    rw [this]
    simp [ceilQuot]
  have ha1 : 1 ≤ a := by omega
  have hda := two_pow_bits_le a ha1
  have hdb := lt_two_pow_bits b
  have hd : bits a ≤ 24 := by
    by_contra hc
    have : 2 ^ 24 ≤ 2 ^ (bits a - 1) := Nat.pow_le_pow_right (by decide) (by omega)
    omega
  have he : 1 ≤ bits b := by
    by_contra hc
    have : bits b = 0 := by omega
    rw [this] at hdb
    omega
  have hd1 : 1 ≤ bits a := by
    by_contra hc
    have : bits a = 0 := by omega
    have h := lt_two_pow_bits a
    rw [this] at h
    omega
  obtain ⟨hk1, hk2, hk3⟩ := ceilDiv_bounds a b hb ha1
  have hs : ∃ s, (if 2 ^ 23 * b ≤ a * 2 ^ (23 + bits b - bits a) then 23 + bits b - bits a
      else 23 + bits b - bits a + 1) = s ∧ 2 ^ 23 * b ≤ a * 2 ^ s := by
    by_cases hc : 2 ^ 23 * b ≤ a * 2 ^ (23 + bits b - bits a)
    · exact ⟨_, if_pos hc, hc⟩
    · refine ⟨_, if_neg hc, ?_⟩
      have e1 : (bits a - 1) + (23 + bits b - bits a + 1) = 23 + bits b := by omega
      have h3 : 2 ^ (bits a - 1) * 2 ^ (23 + bits b - bits a + 1) ≤
          a * 2 ^ (23 + bits b - bits a + 1) := Nat.mul_le_mul_right _ hda
      rw [← pow_add, e1, pow_add] at h3
      have h4 : 2 ^ 23 * b ≤ 2 ^ 23 * 2 ^ bits b := Nat.mul_le_mul_left _ (by omega)
      omega
  obtain ⟨s, hs1, hs2⟩ := hs
  unfold ceilQuot
  rw [if_neg ha0, if_pos (by omega)]
  simp only [hs1]
  have hpos : 0 < 2 ^ s := Nat.two_pow_pos s
  have hbs : b < 2 * 2 ^ s := by
    have h5 : a * 2 ^ s < 2 ^ 24 * 2 ^ s := Nat.mul_lt_mul_of_pos_right ha hpos
    have h6 : 2 ^ 23 * b < 2 ^ 23 * (2 * 2 ^ s) := by
      have : (2:Nat) ^ 24 * 2 ^ s = 2 ^ 23 * (2 * 2 ^ s) := by ring
      omega
    exact Nat.lt_of_mul_lt_mul_left h6
  have hup : roundHalfEven (a * 2 ^ s) b ≤ ceilDiv a b * 2 ^ s := by
    apply roundHalfEven_le _ _ _ hb
    have : a * 2 ^ s ≤ ceilDiv a b * b * 2 ^ s := Nat.mul_le_mul_right _ hk2
    calc a * 2 ^ s ≤ ceilDiv a b * b * 2 ^ s := this
      _ = ceilDiv a b * 2 ^ s * b := by ring
  have hlo : (ceilDiv a b - 1) * 2 ^ s < roundHalfEven (a * 2 ^ s) b := by
    apply lt_roundHalfEven _ _ _ hb
    have h7 : ((ceilDiv a b - 1) * b + 1) * 2 ^ s ≤ a * 2 ^ s := Nat.mul_le_mul_right _ hk3
    have e7 : ((ceilDiv a b - 1) * b + 1) * 2 ^ s
        = (ceilDiv a b - 1) * 2 ^ s * b + 2 ^ s := by ring
    have e8 : (2 * ((ceilDiv a b - 1) * 2 ^ s) + 1) * b
        = 2 * ((ceilDiv a b - 1) * 2 ^ s * b) + b := by ring
    rw [e8]
    omega
  have e9 : (ceilDiv a b - 1) * 2 ^ s = ceilDiv a b * 2 ^ s - 2 ^ s := Nat.sub_one_mul _ _
  have h10 : 2 ^ s ≤ ceilDiv a b * 2 ^ s := Nat.le_mul_of_pos_left _ hk1
  apply Nat.div_eq_of_lt_le
  · omega
  · rw [Nat.succ_mul]
    omega

theorem ceilDiv_mul_le (irLength L : Nat) (hL : 1 ≤ L) (hb : irLength + L ≤ 2 ^ 23) :
    ceilDiv irLength L * L ≤ 2 ^ 23 := by
  by_cases h0 : irLength = 0
  · subst h0
    have : ceilDiv 0 L = 0 := by
      unfold ceilDiv
      apply Nat.div_eq_of_lt
      omega
    rw [this]
    omega
  · obtain ⟨k1, -, k3⟩ := ceilDiv_bounds irLength L hL (by omega)
    have e : (ceilDiv irLength L - 1) * L = ceilDiv irLength L * L - L := Nat.sub_one_mul _ _
    have : L ≤ ceilDiv irLength L * L := Nat.le_mul_of_pos_left _ k1
    omega

/-- The size of the accumulation buffer is computed without rounding when
`irLength + L ≤ 2 ^ 23`. -/
theorem bufLength_exact (irLength L : Nat) (hL : 1 ≤ L) (hb : irLength + L ≤ 2 ^ 23) :
    toFloat (toFloat (ceilQuot (toFloat irLength) (toFloat L) * toFloat L) * 2)
      = ceilDiv irLength L * L * 2 := by
  rw [toFloat_of_le irLength (by omega), toFloat_of_le L (by omega),
    ceilQuot_exact irLength L hL (by omega)]
  have hprod := ceilDiv_mul_le irLength L hL hb
  rw [toFloat_of_le (ceilDiv irLength L * L) (by omega),
    toFloat_of_le (ceilDiv irLength L * L * 2) (by omega)]

/-- The share of a worker is computed without rounding for up to `2 ^ 24` partitions. -/
theorem share_exact (total T : Nat) (hT : 1 ≤ T) (hP : total ≤ 2 ^ 24) (hT2 : T ≤ 2 ^ 24) :
    share total T = ceilDiv (total - 1) T := by
  unfold share
  rw [toFloat_of_le total hP, toFloat_of_le (total - 1) (by omega), toFloat_of_le T hT2,
    ceilQuot_exact (total - 1) T hT (by omega)]

/-! ## Binary32 arithmetic: how far rounding can take a value down -/

/-- The conversion to `float` rounds `2 ^ 24 + 1` down and `2 ^ 24 + 3` up. -/
theorem toFloat_rounds :
    toFloat 16777217 = 16777216 ∧ toFloat 16777219 = 16777220 ∧
      toFloat 33554434 = 33554432 ∧ toFloat 33554438 = 33554440 := by
  decide

/-- With `irLength = 2 ^ 24 + 1` and `N = 2` the buffer has `2 ^ 25` samples, two less
than `2 * irLength`; with `irLength = 2 ^ 30` and `N = 8` the product is `2 ^ 31`,
which is no `int`; with `N < 2` the divisor is zero. -/
theorem new_rounds :
    (new MAX_NUM_THREADS [[1]] 2 16777217).map (fun s => s.bufLength) = some 33554432 ∧
      new MAX_NUM_THREADS [[1]] 8 1073741824 = none ∧
      new MAX_NUM_THREADS [[1]] 1 4 = none := by
  decide

/-- Two segments of `L = 2 ^ 25 + 1` samples and `irLength = 2 ^ 25 + 2`: both
conversions round to `2 ^ 25`, the quotient is `1`, and the buffer has `2 ^ 26` samples,
two less than `partitionCount * M`. -/
theorem new_rounds_below_reach :
    [[1], [1]].length = ceilDiv 33554434 (67108866 / 2) ∧
      (new MAX_NUM_THREADS [[1], [1]] 67108866 33554434).map
        (fun s => (s.bufLength, s.fftConvolvers.length * s.M)) = some (67108864, 67108866) := by
  decide

/-! ## The constructor on the scenarios -/

theorem new_pureDelays :
    new MAX_NUM_THREADS [[1, 0, 0, 0], [0, 1, 0, 0], [0, 0, 1, 0]] 8 12 = some pureDelays := by
  decide

theorem new_single (seg : List Int) : new MAX_NUM_THREADS [seg] 8 4 = some (single seg) := by
  rfl

theorem getNext_of_lt (s : Convolver) (buffer : List Int) (length : Nat) (h : s.L < length) :
    getNext s buffer length = (s, buffer, 0) := by
  unfold getNext
  rw [if_pos h]

/-- C2: a call of `getNext` with `length > L` leaves `0` in `length` and returns the
object and the caller's buffer as they were: positions, staged input, accumulation
buffer and partition convolvers are untouched, and no worker has run. -/
theorem getNext_length_above_L (s : Convolver) (buffer : List Int) (length : Nat)
    (h : s.L < length) : getNext s buffer length = (s, buffer, 0) := by
  unfold getNext
  rw [if_pos h]

theorem getNext_length_above_L_witness :
    pureDelays.L < 5 ∧
      getNext pureDelays [1, 2, 3, 4, 5] 5 = (pureDelays, [1, 2, 3, 4, 5], 0) :=
  ⟨by decide, getNext_length_above_L pureDelays [1, 2, 3, 4, 5] 5 (by decide)⟩

/-! ## The pure-delay scenario -/

/-- C3: with `L = M = 4`, `irLength = 12` and the three pure delays, pushing `[1,2,3,4]`
and three zero blocks returns `[1,2,3,4]`, `[0,1,2,3]`, `[4,0,1,2]`, `[3,4,0,0]`, and
these sixteen samples are the direct convolution of the input with the twelve-sample
impulse response. -/
theorem pushBlocks_pureDelays :
    (new MAX_NUM_THREADS [[1, 0, 0, 0], [0, 1, 0, 0], [0, 0, 1, 0]] 8 12).map
        (fun s => (pushBlocks s [[1, 2, 3, 4], [0, 0, 0, 0], [0, 0, 0, 0], [0, 0, 0, 0]]).2)
      = some [[1, 2, 3, 4], [0, 1, 2, 3], [4, 0, 1, 2], [3, 4, 0, 0]] ∧
    [1, 2, 3, 4, 0, 1, 2, 3, 4, 0, 1, 2, 3, 4, 0, 0]
      = delayedConvolution [1, 2, 3, 4, 0, 0, 0, 0, 0, 0, 0, 0, 0, 0, 0, 0]
          [1, 0, 0, 0, 0, 1, 0, 0, 0, 0, 1, 0] 0 16 := by
  constructor <;> decide

/-! ## Blocks shorter than `L` -/

/-- C1 (evaluation): one segment `[1,0,0,0]`, `L = 4`, three blocks of three samples.
The write position goes `0, 3, 0` without ever being `bufLength / 2 = 4`, the first half
is never zeroed, and the third call adds its block to the samples left by the first one:
the blocks returned are `[1,1,1]`, `[0,0,0]`, `[1,1,1]`, which is not the direct
convolution `[1,1,1,0,0,0,0,0,0]` behind any delay. -/
theorem pushBlocks_short_blocks :
    (new MAX_NUM_THREADS [[1, 0, 0, 0]] 8 4).map
        (fun s => (pushBlocks s [[1, 1, 1], [0, 0, 0], [0, 0, 0]]).2)
      = some [[1, 1, 1], [0, 0, 0], [1, 1, 1]] ∧
    ∀ d : Nat, [1, 1, 1, 0, 0, 0, 1, 1, 1]
      ≠ delayedConvolution [1, 1, 1, 0, 0, 0, 0, 0, 0] [1, 0, 0, 0] d 9 := by
  refine ⟨by decide, ?_⟩
  intro d h
  cases d with
  | zero => exact absurd h (by decide)
  | succ d =>
    have h0 := congrArg (fun l => l.getD 0 0) h
    simp [delayedConvolution, List.range_succ_eq_map] at h0

/-- C8 (evaluation): two segments, `L = 4`, `bufLength = 16`, blocks of three samples
with a single `1` at sample 11.  The read positions of the first five calls are
`0, 3, 6, 9, 12`, so index 15 has not been returned when it holds the contribution of
partition 1 for sample 15; the sixth call finds `15 > 16 - 3`, sets the write position
to `0` and zeroes the second half.  The `1` due at sample 15 is in none of the blocks
returned. -/
theorem pushBlocks_wrap_erases :
    (List.range 6).map (fun k => (pushBlocks echo (echoBlocks.take k)).1.readPosition)
      = [0, 0, 3, 6, 9, 12] ∧
    (pushBlocks echo (echoBlocks.take 5)).1.outBuffer.getD 15 0 = 1 ∧
    (pushBlocks echo echoBlocks).1.writePosition = 0 ∧
    (pushBlocks echo echoBlocks).1.outBuffer.getD 15 0 = 0 ∧
    (pushBlocks echo echoBlocks).2
      = [[0, 0, 0], [0, 0, 0], [0, 0, 0], [0, 0, 1], [0, 0, 0], [0, 0, 0]] ∧
    delayedConvolution echoBlocks.flatten [1, 0, 0, 0, 1, 0, 0, 0] 0 18
      = [0, 0, 0, 0, 0, 0, 0, 0, 0, 0, 0, 1, 0, 0, 0, 1, 0, 0] := by
  refine ⟨by decide, by decide, by decide, by decide, by decide, by decide⟩

/-! ## `reset` -/

theorem reset_of_pos (s : Convolver) (h : 0 < s.bufLength) :
    reset s = Except.error Fault.nullRead := by
  unfold reset memcpy
  simp only
  rw [if_neg (by omega)]

/-- C5 (evaluation): on the object built from one segment (`bufLength = 8`), `reset`
does not return: its `memcpy` reads eight samples through the null pointer, where the
claim has all eight samples of the accumulation buffer set to zero. -/
theorem reset_fresh_faults : reset (single [1, 0, 0, 0]) = Except.error Fault.nullRead := by
  rfl

/-- C4 (evaluation): one segment `[0,0,0,1]`, one block `[1,1,1,1]` pushed; the
partition convolver then holds the tail `[1,1,1]`.  `reset` faults in its `memcpy`.
Its other statements assign the flag, the two positions and the staged length and
none touches a partition convolver: from the object with those four members reset and
an all-zero accumulation buffer, a zero block still comes back as `[1,1,1,0]`.  With
`FFTConvolver::clear()` called on the partition as well it comes back all zero. -/
theorem reset_keeps_tail :
    (pushBlocks (single [0, 0, 0, 1]) [[1, 1, 1, 1]]).2 = [[0, 0, 0, 1]] ∧
    (pushBlocks (single [0, 0, 0, 1]) [[1, 1, 1, 1]]).1.fftConvolvers.map (fun c => c.tail)
      = [[1, 1, 1]] ∧
    reset (pushBlocks (single [0, 0, 0, 1]) [[1, 1, 1, 1]]).1 = Except.error Fault.nullRead ∧
    (getNext
        { (pushBlocks (single [0, 0, 0, 1]) [[1, 1, 1, 1]]).1 with
          resetFlag := true, inLength := 0, readPosition := 0, writePosition := 0
          outBuffer := List.replicate 8 0 }
        [0, 0, 0, 0] 4).2 = ([1, 1, 1, 0], 4) ∧
    (getNext
        { (pushBlocks (single [0, 0, 0, 1]) [[1, 1, 1, 1]]).1 with
          resetFlag := true, inLength := 0, readPosition := 0, writePosition := 0
          outBuffer := List.replicate 8 0
          fftConvolvers :=
            (pushBlocks (single [0, 0, 0, 1]) [[1, 1, 1, 1]]).1.fftConvolvers.map
              FFTConvolver.clear }
        [0, 0, 0, 0] 4).2 = ([0, 0, 0, 0], 4) := by
  refine ⟨by decide, by decide, by rfl, by decide, by decide⟩

/-! ## Size of the accumulation buffer -/

theorem new_eq_some {cap : Nat} {ir : List (List Int)} {N irLength : Nat} {s : Convolver}
    (h : new cap ir N irLength = some s) :
    ir.length ≠ 0 ∧ 1 ≤ N / 2 ∧ s.M = N / 2 ∧ s.L = N / 2 ∧
      s.fftConvolvers = ir.map (fun seg => FFTConvolver.new seg (N / 2) (N / 2) N) ∧
      s.bufLength =
        toFloat (toFloat (ceilQuot (toFloat irLength) (toFloat (N / 2)) * toFloat (N / 2)) * 2) ∧
      s.outBuffer.length = s.bufLength ∧
      s.inLength = 0 ∧ s.writePosition = 0 ∧ s.resetFlag = false ∧
      s.numThreads = min cap (ir.length - 1) := by
  unfold new at h
  by_cases h1 : ir.length = 0
  · rw [if_pos h1] at h
    exact absurd h (by simp)
  · rw [if_neg h1] at h
    by_cases h2 : N / 2 = 0
    · rw [if_pos h2] at h
      exact absurd h (by simp)
    · rw [if_neg h2] at h
      simp only at h
      split at h
      · exact absurd h (by simp)
      · cases h
        exact ⟨h1, by omega, rfl, rfl, rfl, rfl, by simp, rfl, rfl, rfl, rfl⟩

/-- C7 (as stated, refuted): three segments with `N = 8` and `irLength = 4` give
`bufLength = 8`, below `partitionCount * M = 12`. -/
theorem bufLength_below_reach :
    ∃ s, new MAX_NUM_THREADS [[1, 0, 0, 0], [0, 1, 0, 0], [0, 0, 1, 0]] 8 4 = some s ∧
      s.bufLength < s.fftConvolvers.length * s.M :=
  ⟨_, rfl, by decide⟩

/-- C7 (amended): when the number of segments supplied is at most `ceil(irLength / L)`
and `irLength + L ≤ 2 ^ 23`, so that the binary32 computation of the size is exact, the
accumulation buffer has `2 * ceil(irLength / L) * L` samples with `L = M = N / 2`,
which is at least `partitionCount * M`, and even twice that. -/
theorem bufLength_covers_reach (cap : Nat) (ir : List (List Int)) (N irLength : Nat)
    (s : Convolver) (h : new cap ir N irLength = some s)
    (hparts : ir.length ≤ ceilDiv irLength (N / 2))
    (hexact : irLength + N / 2 ≤ 2 ^ 23) :
    s.L = N / 2 ∧ s.M = N / 2 ∧ s.bufLength = 2 * ceilDiv irLength s.L * s.L ∧
      s.fftConvolvers.length = ir.length ∧ s.fftConvolvers.length * s.M ≤ s.bufLength ∧
      2 * (s.fftConvolvers.length * s.M) ≤ s.bufLength := by
  obtain ⟨_, hN, hM, hL, hc, hb, _⟩ := new_eq_some h
  rw [bufLength_exact irLength (N / 2) hN hexact] at hb
  have hlen : s.fftConvolvers.length = ir.length := by rw [hc, List.length_map]
  have h1 : ir.length * (N / 2) ≤ ceilDiv irLength (N / 2) * (N / 2) :=
    Nat.mul_le_mul_right _ hparts
  refine ⟨hL, hM, ?_, hlen, ?_, ?_⟩
  · rw [hb, hL]; ring
  · rw [hlen, hM, hb]
    omega
  · rw [hlen, hM, hb]
    omega

theorem bufLength_covers_reach_witness :
    new MAX_NUM_THREADS [[1, 0, 0, 0], [0, 1, 0, 0], [0, 0, 1, 0]] 8 12 = some pureDelays ∧
      [[1, 0, 0, 0], [0, 1, 0, 0], [0, 0, 1, 0]].length ≤ ceilDiv 12 (8 / 2) ∧
      12 + 8 / 2 ≤ 2 ^ 23 ∧
      pureDelays.fftConvolvers.length * pureDelays.M ≤ pureDelays.bufLength :=
  ⟨new_pureDelays, by decide, by decide,
    (bufLength_covers_reach MAX_NUM_THREADS [[1, 0, 0, 0], [0, 1, 0, 0], [0, 0, 1, 0]] 8 12
      pureDelays new_pureDelays (by decide) (by decide)).2.2.2.2.1⟩

/-! ## The ranges of the workers -/

theorem le_ceilDiv_mul (a T : Nat) (hT : 1 ≤ T) : a ≤ T * ceilDiv a T := by
  unfold ceilDiv
  have h1 := Nat.div_add_mod (a + T - 1) T
  have h2 := Nat.mod_lt (a + T - 1) (show T > 0 by omega)
  omega

theorem flatMap_range_succ (f : Nat → List Nat) (k : Nat) :
    (List.range (k + 1)).flatMap f = (List.range k).flatMap f ++ f k := by
  rw [List.range_succ, List.flatMap_append]
  simp

theorem workerRange_upto (P T k : Nat) :
    (List.range k).flatMap (workerRange P T) = List.range' 1 (min (k * share P T) (P - 1)) := by
  induction k with
  | zero => simp
  | succ k ih =>
    rw [flatMap_range_succ, ih]
    unfold workerRange stop start
    by_cases hk : k * share P T < P - 1
    · have e1 : min (k * share P T) (P - 1) = k * share P T := by omega
      have e2 : k * share P T + 1 = 1 + k * share P T := by omega
      rw [e1, e2, List.range'_append_1]
      congr 1
      rw [Nat.succ_mul]
      omega
    · have e1 : min (k * share P T + 1 + share P T) P - (k * share P T + 1) = 0 := by omega
      rw [e1, Nat.succ_mul]
      simp
      omega

/-- C9 (as stated, refuted): with `P = 2 ^ 24 + 2` partitions and two workers,
`(float)total - 1` rounds `16777217` to `16777216`, the share is `8388608`, the second
worker stops at `end = 16777217`, and partition `16777217` is in no range. -/
theorem workerRange_misses_last :
    min MAX_NUM_THREADS (16777218 - 1) = 2 ∧
      share 16777218 2 = 8388608 ∧
      start 16777218 2 1 = 8388609 ∧
      stop 16777218 2 1 = 16777217 ∧
      16777217 ∉ (List.range 2).flatMap (workerRange 16777218 2) := by
  have hs : share 16777218 2 = 8388608 := by decide
  refine ⟨by decide, hs, by decide, by decide, ?_⟩
  have e : List.range 2 = [0, 1] := rfl
  rw [e]
  simp only [List.flatMap_cons, List.flatMap_nil, List.append_nil, List.mem_append,
    workerRange, start, stop, hs, List.mem_range'_1]
  omega

/-- C9 (amended): for `P ≤ 2 ^ 24` partitions and `1 ≤ T ≤ 2 ^ 24` workers, the ranges
`start .. end - 1` of the workers `0 .. T - 1`, put one after the other in the order of
the ids, are the list `1, 2, .., P - 1`: each range is a run of consecutive partitions,
the runs follow one another without gap or overlap, and every partition but the first
is in exactly one. -/
theorem workerRange_cover (P T : Nat) (hT : 1 ≤ T) (hP : P ≤ 2 ^ 24) (hT2 : T ≤ 2 ^ 24) :
    (List.range T).flatMap (workerRange P T) = List.range' 1 (P - 1) := by
  rw [workerRange_upto, share_exact P T hT hP hT2]
  have h := le_ceilDiv_mul (P - 1) T hT
  have e : min (T * ceilDiv (P - 1) T) (P - 1) = P - 1 := by omega
  rw [e]

theorem workerRange_cover_witness :
    1 ≤ 4 ∧ 6 ≤ 2 ^ 24 ∧ 4 ≤ 2 ^ 24 ∧
      [workerRange 6 4 0, workerRange 6 4 1, workerRange 6 4 2, workerRange 6 4 3]
        = [[1, 2], [3, 4], [5], []] ∧
      (List.range 4).flatMap (workerRange 6 4) = List.range' 1 (6 - 1) :=
  ⟨by decide, by decide, by decide, by decide,
    workerRange_cover 6 4 (by decide) (by decide) (by decide)⟩

/-! ## Indices stay inside the accumulation buffer -/

theorem addAt_length (buf : List Int) (pos : Nat) (v : Int) :
    (addAt buf pos v).length = buf.length := by
  induction buf generalizing pos with
  | nil => rfl
  | cons x xs ih =>
    cases pos with
    | zero => rfl
    | succ n => simp [addAt, ih]

theorem foldl_addAt_length (l : List Nat) (f : Nat → Nat) (g : Nat → Int) (buf : List Int) :
    (l.foldl (fun b j => addAt b (f j) (g j)) buf).length = buf.length := by
  induction l generalizing buf with
  | nil => rfl
  | cons a l ih => rw [List.foldl_cons, ih, addAt_length]

theorem zeroRange_length (buf : List Int) (start n : Nat) :
    (zeroRange buf start n).length = buf.length := by
  unfold zeroRange
  simp only [List.length_append, List.length_take, List.length_replicate, List.length_drop]
  omega

theorem map_set_same {α β : Type} (f : α → β) (l : List α) (i : Nat) (c d : α)
    (h : l.get? i = some c) (hf : f d = f c) : (l.set i d).map f = l.map f := by
  induction l generalizing i with
  | nil => rfl
  | cons x xs ih =>
    cases i with
    | zero =>
      simp only [List.get?_cons_zero, Option.some.injEq] at h
      subst h
      simp [hf]
    | succ n =>
      simp only [List.get?_cons_succ] at h
      simp [ih n h]

theorem mem_of_get? {α : Type} (l : List α) (i : Nat) (c : α) (h : l.get? i = some c) :
    c ∈ l := by
  induction l generalizing i with
  | nil => simp at h
  | cons x xs ih =>
    cases i with
    | zero =>
      simp only [List.get?_cons_zero, Option.some.injEq] at h
      subst h
      exact List.mem_cons_self _ _
    | succ n =>
      simp only [List.get?_cons_succ] at h
      exact List.mem_cons_of_mem _ (ih n h)

theorem FFTConvolver.getNext_of_le (c : FFTConvolver) (inBuffer : List Int) (length : Nat)
    (h : length ≤ c.L) :
    (c.getNext inBuffer length).1.L = c.L ∧ (c.getNext inBuffer length).2.2 = length := by
  unfold FFTConvolver.getNext
  rw [if_neg (by omega)]
  exact ⟨rfl, rfl⟩

theorem partitionStep_shape (s : Convolver) (i : Nat)
    (hL : ∀ c ∈ s.fftConvolvers, c.L = s.L) (hin : s.inLength ≤ s.L) :
    shape (partitionStep s i).1 = shape s := by
  unfold partitionStep
  cases hc : s.fftConvolvers.get? i with
  | none => rfl
  | some c =>
    have hcL := hL c (mem_of_get? _ _ _ hc)
    obtain ⟨h1, h2⟩ := c.getNext_of_le s.inBuffer s.inLength (by omega)
    have hmap := map_set_same (fun c : FFTConvolver => c.L) s.fftConvolvers i c
      (c.getNext s.inBuffer s.inLength).1 hc h1
    cases hflag : s.resetFlag <;>
      simp [shape, accumulate, hflag, h2, hmap, foldl_addAt_length]

theorem shape_blocks {s t : Convolver} (h : shape t = shape s)
    (hL : ∀ c ∈ s.fftConvolvers, c.L = s.L) (hin : s.inLength ≤ s.L) :
    (∀ c ∈ t.fftConvolvers, c.L = t.L) ∧ t.inLength ≤ t.L := by
  simp only [shape, Prod.mk.injEq] at h
  obtain ⟨-, hLL, -, -, hI, -, -, hmap⟩ := h
  refine ⟨fun c hc => ?_, by omega⟩
  have h1 : c.L ∈ t.fftConvolvers.map (fun c => c.L) := List.mem_map_of_mem _ hc
  rw [hmap, List.mem_map] at h1
  obtain ⟨d, hd, hdc⟩ := h1
  rw [← hdc, hL d hd, hLL]

theorem threadLoop_shape (l : List Nat) (s : Convolver)
    (hL : ∀ c ∈ s.fftConvolvers, c.L = s.L) (hin : s.inLength ≤ s.L) :
    shape (threadLoop s l) = shape s := by
  induction l generalizing s with
  | nil => rfl
  | cons i rest ih =>
    have h1 := partitionStep_shape s i hL hin
    unfold threadLoop
    by_cases hb : (partitionStep s i).2 = true
    · simp only [hb, if_true]
      exact h1
    · obtain ⟨h2, h3⟩ := shape_blocks h1 hL hin
      rw [if_neg hb, ih _ h2 h3, h1]

theorem foldl_threadFunction_shape (ids : List Nat) (s : Convolver)
    (hL : ∀ c ∈ s.fftConvolvers, c.L = s.L) (hin : s.inLength ≤ s.L) :
    shape (ids.foldl threadFunction s) = shape s := by
  induction ids generalizing s with
  | nil => rfl
  | cons id rest ih =>
    have h1 : shape (threadFunction s id) = shape s := threadLoop_shape _ s hL hin
    obtain ⟨h2, h3⟩ := shape_blocks h1 hL hin
    rw [List.foldl_cons, ih _ h2 h3, h1]

theorem runThreads_shape (s : Convolver)
    (hL : ∀ c ∈ s.fftConvolvers, c.L = s.L) (hin : s.inLength ≤ s.L) :
    shape (runThreads s) = shape s :=
  foldl_threadFunction_shape _ s hL hin

theorem wellFormed_of_shape {s t : Convolver} (h : shape t = shape s) (hs : WellFormed s) :
    WellFormed t := by
  obtain ⟨hb1, hb2⟩ := shape_blocks h hs.blocks hs.staged
  simp only [shape, Prod.mk.injEq] at h
  obtain ⟨hM, hL, hB, hW, hI, -, hO, hmap⟩ := h
  have hlen : t.fftConvolvers.length = s.fftConvolvers.length := by
    have := congrArg List.length hmap
    simpa using this
  exact
    { M_eq := by rw [hM, hL]; exact hs.M_eq
      parts := by rw [hlen]; exact hs.parts
      block := by rw [hB, hL]; exact hs.block
      reach := by rw [hB, hlen, hL]; exact hs.reach
      out := by rw [hO, hB]; exact hs.out
      staged := hb2
      pos := by rw [hW, hI, hB]; exact hs.pos
      blocks := hb1 }

theorem advance_fields (s : Convolver) (length : Nat) :
    (advance s length).M = s.M ∧ (advance s length).L = s.L ∧
      (advance s length).bufLength = s.bufLength ∧
      (advance s length).inLength = s.inLength ∧
      (advance s length).numThreads = s.numThreads ∧
      (advance s length).fftConvolvers = s.fftConvolvers ∧
      (advance s length).resetFlag = s.resetFlag ∧
      (advance s length).outBuffer.length = s.outBuffer.length := by
  simp only [advance]
  split_ifs <;> simp [zeroRange_length]

theorem advance_writePosition (s : Convolver) (length : Nat) (h : length ≤ s.bufLength) :
    (advance s length).writePosition + length ≤ s.bufLength := by
  simp only [advance]
  split_ifs <;> simp <;> omega

theorem new_wellFormed {cap : Nat} {ir : List (List Int)} {N irLength : Nat} {s : Convolver}
    (h : new cap ir N irLength = some s) (hblock : s.L ≤ s.bufLength)
    (hreach : (s.fftConvolvers.length - 1) * s.L ≤ s.bufLength) : WellFormed s := by
  obtain ⟨hne, -, hM, hL, hc, -, hout, hin, hwp, -, -⟩ := new_eq_some h
  exact
    { M_eq := by rw [hM, hL]
      parts := by rw [hc, List.length_map]; omega
      block := hblock
      reach := hreach
      out := hout
      staged := by rw [hin]; omega
      pos := by rw [hin, hwp]; omega
      blocks := by
        intro c hc2
        rw [hc, List.mem_map] at hc2
        obtain ⟨seg, -, rfl⟩ := hc2
        rw [hL]
        rfl }

/-- A buffer that covers the reach `partitionCount * M` holds a block and the delay of
the last partition. -/
theorem new_wellFormed_of_covers {cap : Nat} {ir : List (List Int)} {N irLength : Nat}
    {s : Convolver} (h : new cap ir N irLength = some s)
    (hbuf : s.fftConvolvers.length * s.M ≤ s.bufLength) : WellFormed s := by
  obtain ⟨hne, -, hM, hL, hc, -⟩ := new_eq_some h
  have hparts : 1 ≤ s.fftConvolvers.length := by rw [hc, List.length_map]; omega
  have hML : s.M = s.L := by rw [hM, hL]
  rw [hML] at hbuf
  have k1 : s.L ≤ s.fftConvolvers.length * s.L := Nat.le_mul_of_pos_left _ hparts
  have k2 : (s.fftConvolvers.length - 1) * s.L ≤ s.fftConvolvers.length * s.L :=
    Nat.mul_le_mul_right _ (by omega)
  exact new_wellFormed h (by omega) (by omega)

/-- What an accepted call leaves: a well-formed state with the members below. -/
theorem getNext_accepted {s : Convolver} (hs : WellFormed s) (buffer : List Int)
    (length : Nat) (hlen : length ≤ s.L) :
    WellFormed (getNext s buffer length).1 ∧
      (getNext s buffer length).1.inLength = length ∧
      (getNext s buffer length).1.L = s.L ∧
      (getNext s buffer length).1.readPosition = (getNext s buffer length).1.writePosition ∧
      (getNext s buffer length).2.2 = length ∧
      (getNext s buffer length).1.bufLength = s.bufLength ∧
      (getNext s buffer length).1.M = s.M ∧
      (getNext s buffer length).1.fftConvolvers.length = s.fftConvolvers.length := by
  have hparts := hs.parts
  have hblocks := hs.blocks
  unfold getNext
  rw [if_neg (by omega)]
  cases hfc : s.fftConvolvers with
  | nil => rw [hfc] at hparts; simp at hparts
  | cons c0 rest =>
    simp only
    rw [hfc] at hblocks
    have hc0 : c0.L = s.L := hblocks c0 (List.mem_cons_self _ _)
    obtain ⟨h1, h2⟩ := c0.getNext_of_le buffer length (by omega)
    rw [h2]
    obtain ⟨aM, aL, aB, aI, aT, aF, aR, aO⟩ :=
      advance_fields { s with fftConvolvers := (c0.getNext buffer length).1 :: rest } length
    have aW := advance_writePosition
      { s with fftConvolvers := (c0.getNext buffer length).1 :: rest } length
      (by have := hs.block; simp only; omega)
    simp only at aM aL aB aI aT aF aR aO aW
    have hs2 : WellFormed
        { advance { s with fftConvolvers := (c0.getNext buffer length).1 :: rest } length with
          inLength := length
          inBuffer := copyInto
            (advance { s with fftConvolvers := (c0.getNext buffer length).1 :: rest }
              length).inBuffer buffer length } :=
      { M_eq := by simp only [aM, aL]; exact hs.M_eq
        parts := by simp [aF]
        block := by simp only [aB, aL]; exact hs.block
        reach := by
          have := hs.reach
          rw [hfc] at this
          simp only [aB, aF, aL, List.length_cons] at this ⊢
          exact this
        out := by simp only [aO, aB]; exact hs.out
        staged := by simp only [aL]; exact hlen
        pos := by simp only [aB]; exact aW
        blocks := by
          intro c hc
          simp only [aF, aL, List.mem_cons] at hc ⊢
          rcases hc with rfl | hc
          · rw [h1, hc0]
          · exact hblocks c (List.mem_cons_of_mem _ hc) }
    have hrun := runThreads_shape _ hs2.blocks hs2.staged
    refine ⟨wellFormed_of_shape ?_ hs2, ?_, ?_, trivial, rfl, ?_, ?_, ?_⟩
    · rw [← hrun]
      simp [shape, foldl_addAt_length]
    · have := congrArg (fun t => t.2.2.2.2.1) hrun
      simpa [shape] using this
    · have := congrArg (fun t => t.2.1) hrun
      simpa [shape, aL] using this
    · have := congrArg (fun t => t.2.2.1) hrun
      simpa [shape, aB] using this
    · have := congrArg (fun t => t.1) hrun
      simpa [shape, aM] using this
    · have := congrArg (fun t => t.2.2.2.2.2.2.2.length) hrun
      simpa [shape, aF] using this

theorem getNext_wellFormed {s : Convolver} (hs : WellFormed s) (buffer : List Int)
    (length : Nat) : WellFormed (getNext s buffer length).1 := by
  by_cases h : s.L < length
  · rw [getNext_of_lt s buffer length h]
    exact hs
  · exact (getNext_accepted hs buffer length (by omega)).1

theorem reachable_wellFormed {s0 s : Convolver} (h0 : WellFormed s0) (h : Reachable s0 s) :
    WellFormed s := by
  induction h with
  | init => exact h0
  | step buffer length _ ih => exact getNext_wellFormed ih buffer length

theorem getNext_bufLength {s : Convolver} (hs : WellFormed s) (buffer : List Int)
    (length : Nat) :
    (getNext s buffer length).1.bufLength = s.bufLength ∧
      (getNext s buffer length).1.M = s.M ∧
      (getNext s buffer length).1.fftConvolvers.length = s.fftConvolvers.length := by
  by_cases h : s.L < length
  · rw [getNext_of_lt s buffer length h]
    exact ⟨rfl, rfl, rfl⟩
  · obtain ⟨-, -, -, -, -, h1, h2, h3⟩ := getNext_accepted hs buffer length (by omega)
    exact ⟨h1, h2, h3⟩

theorem reachable_bufLength {s0 s : Convolver} (h0 : WellFormed s0) (h : Reachable s0 s) :
    s.bufLength = s0.bufLength ∧ s.M = s0.M ∧
      s.fftConvolvers.length = s0.fftConvolvers.length := by
  induction h with
  | init => exact ⟨rfl, rfl, rfl⟩
  | step buffer length hr ih =>
    obtain ⟨h1, h2, h3⟩ := getNext_bufLength (reachable_wellFormed h0 hr) buffer length
    exact ⟨by rw [h1, ih.1], by rw [h2, ih.2.1], by rw [h3, ih.2.2]⟩

theorem WellFormed.delay_le {s : Convolver} (hs : WellFormed s) (i : Nat)
    (hi : i < s.fftConvolvers.length) : i * s.L ≤ s.bufLength := by
  have h1 := Nat.mul_le_mul_right s.L (show i ≤ s.fftConvolvers.length - 1 by omega)
  have h2 := hs.reach
  omega

/-- The sum `j + m_writePosition + delay` formed by a worker is below `2 * bufLength`. -/
theorem WellFormed.position_sum_lt {s : Convolver} (hs : WellFormed s) (i j : Nat)
    (hi : i < s.fftConvolvers.length) (hj : j < s.inLength) :
    j + s.writePosition + i * s.M < 2 * s.bufLength := by
  have h1 := hs.delay_le i hi
  have h3 := hs.pos
  rw [hs.M_eq]
  omega

/-- When the buffer covers the reach, two workers, or one worker at two samples, never
write the same index. -/
theorem WellFormed.position_injective {s : Convolver} (hs : WellFormed s)
    (hbuf : s.fftConvolvers.length * s.M ≤ s.bufLength) (i j k l : Nat)
    (hi : i < s.fftConvolvers.length) (hj : j < s.inLength)
    (hk : k < s.fftConvolvers.length) (hl : l < s.inLength)
    (h : position s i j = position s k l) : i = k ∧ j = l := by
  have a1 := Nat.mul_le_mul_right s.L (show i + 1 ≤ s.fftConvolvers.length from hi)
  have a2 := Nat.mul_le_mul_right s.L (show k + 1 ≤ s.fftConvolvers.length from hk)
  rw [Nat.succ_mul] at a1 a2
  rw [hs.M_eq] at hbuf
  have k4 := hs.pos
  have k5 := hs.staged
  have hsum : j + i * s.L = l + k * s.L := by
    unfold position at h
    simp only [hs.M_eq] at h
    split at h <;> split at h <;> omega
  have hik : i = k := by
    rcases Nat.lt_trichotomy i k with c | c | c
    · have := Nat.mul_le_mul_right s.L (show i + 1 ≤ k from c)
      rw [Nat.succ_mul] at this
      omega
    · exact c
    · have := Nat.mul_le_mul_right s.L (show k + 1 ≤ i from c)
      rw [Nat.succ_mul] at this
      omega
  subst hik
  exact ⟨rfl, by omega⟩

/-- When the buffer covers the reach, no index written by a worker lies in the block
`writePosition .. writePosition + inLength - 1` that the caller adds to and hands back
in the same call. -/
theorem WellFormed.position_outside_block {s : Convolver} (hs : WellFormed s)
    (hbuf : s.fftConvolvers.length * s.M ≤ s.bufLength) (i j : Nat)
    (h1 : 1 ≤ i) (hi : i < s.fftConvolvers.length) (hj : j < s.inLength) :
    position s i j < s.writePosition ∨ s.writePosition + s.inLength ≤ position s i j := by
  have k1 := Nat.mul_le_mul_right s.L (show i + 1 ≤ s.fftConvolvers.length from hi)
  rw [Nat.succ_mul] at k1
  have k2 : s.L ≤ i * s.L := Nat.le_mul_of_pos_left _ h1
  rw [hs.M_eq] at hbuf
  have k4 := hs.pos
  have k5 := hs.staged
  unfold position
  simp only [hs.M_eq]
  split <;> omega

theorem partitionStep_eraseThreads (s : Convolver) (i : Nat) :
    partitionStep (eraseThreads s) i
      = (eraseThreads (partitionStep s i).1, (partitionStep s i).2) := by
  unfold partitionStep eraseThreads
  cases s.fftConvolvers.get? i with
  | none => rfl
  | some c => cases hflag : s.resetFlag <;> simp [hflag, accumulate, position]

theorem partitionStep_noReset (s : Convolver) (i : Nat) (h : s.resetFlag = false) :
    (partitionStep s i).2 = false ∧ (partitionStep s i).1.resetFlag = false ∧
      (partitionStep s i).1.fftConvolvers.length = s.fftConvolvers.length ∧
      (partitionStep s i).1.numThreads = s.numThreads := by
  unfold partitionStep
  cases s.fftConvolvers.get? i with
  | none => exact ⟨rfl, h, rfl, rfl⟩
  | some c => simp [h, accumulate]

theorem visit_noReset (l : List Nat) (s : Convolver) (h : s.resetFlag = false) :
    (visit s l).resetFlag = false ∧
      (visit s l).fftConvolvers.length = s.fftConvolvers.length ∧
      (visit s l).numThreads = s.numThreads := by
  induction l generalizing s with
  | nil => exact ⟨h, rfl, rfl⟩
  | cons i rest ih =>
    obtain ⟨-, h2, h3, h4⟩ := partitionStep_noReset s i h
    obtain ⟨k1, k2, k3⟩ := ih _ h2
    exact ⟨k1, by rw [← h3]; exact k2, by rw [← h4]; exact k3⟩

theorem threadLoop_eq_visit (l : List Nat) (s : Convolver) (h : s.resetFlag = false) :
    threadLoop s l = visit s l := by
  induction l generalizing s with
  | nil => rfl
  | cons i rest ih =>
    obtain ⟨h1, h2, -, -⟩ := partitionStep_noReset s i h
    unfold threadLoop
    simp only [h1, Bool.false_eq_true, if_false]
    exact ih _ h2

theorem visit_append (s : Convolver) (l m : List Nat) :
    visit s (l ++ m) = visit (visit s l) m := by
  unfold visit
  rw [List.foldl_append]

theorem foldl_threadFunction_eq_visit (ids : List Nat) (s : Convolver)
    (h : s.resetFlag = false) :
    ids.foldl threadFunction s
      = visit s (ids.flatMap (workerRange s.fftConvolvers.length s.numThreads)) := by
  induction ids generalizing s with
  | nil => rfl
  | cons id rest ih =>
    have h1 : threadFunction s id
        = visit s (workerRange s.fftConvolvers.length s.numThreads id) :=
      threadLoop_eq_visit _ s h
    obtain ⟨k1, k2, k3⟩ :=
      visit_noReset (workerRange s.fftConvolvers.length s.numThreads id) s h
    rw [List.foldl_cons, List.flatMap_cons, visit_append, h1, ih _ k1, k2, k3]

/-- With at least one worker, at most `2 ^ 24` partitions and no reset pending, the
workers of one call visit the partitions `1, 2, .., P - 1` in this order, whatever
their number. -/
theorem runThreads_eq_visit (s : Convolver) (h : s.resetFlag = false)
    (hT : 1 ≤ s.numThreads) (hP : s.fftConvolvers.length ≤ 2 ^ 24)
    (hT2 : s.numThreads ≤ 2 ^ 24) :
    runThreads s = visit s (List.range' 1 (s.fftConvolvers.length - 1)) := by
  unfold runThreads
  rw [foldl_threadFunction_eq_visit _ s h, workerRange_upto,
    share_exact s.fftConvolvers.length s.numThreads hT hP hT2]
  have h1 := le_ceilDiv_mul (s.fftConvolvers.length - 1) s.numThreads hT
  have e : min (s.numThreads * ceilDiv (s.fftConvolvers.length - 1) s.numThreads)
      (s.fftConvolvers.length - 1) = s.fftConvolvers.length - 1 := by omega
  rw [e]

theorem visit_eraseThreads (l : List Nat) (s : Convolver) :
    visit (eraseThreads s) l = eraseThreads (visit s l) := by
  induction l generalizing s with
  | nil => rfl
  | cons i rest ih =>
    unfold visit
    rw [List.foldl_cons, List.foldl_cons, partitionStep_eraseThreads]
    exact ih _

/-- Two objects that differ in the number of workers only, both with at least one
worker (or with the same number), at most `2 ^ 24` partitions and no reset pending, are
left by their workers in states that differ in the number of workers only. -/
theorem runThreads_agree (s t : Convolver) (he : eraseThreads s = eraseThreads t)
    (hf : s.resetFlag = false)
    (hT : s.numThreads = t.numThreads ∨ (1 ≤ s.numThreads ∧ 1 ≤ t.numThreads))
    (hP : s.fftConvolvers.length ≤ 2 ^ 24) (hTs : s.numThreads ≤ 2 ^ 24)
    (hTt : t.numThreads ≤ 2 ^ 24) :
    eraseThreads (runThreads s) = eraseThreads (runThreads t) ∧
      (runThreads s).resetFlag = false ∧
      (runThreads s).numThreads = s.numThreads ∧
      (runThreads t).numThreads = t.numThreads ∧
      (runThreads s).fftConvolvers.length = s.fftConvolvers.length := by
  have hft : t.resetFlag = false := by
    have := congrArg Convolver.resetFlag he
    simpa [eraseThreads, hf] using this.symm
  have hlen : s.fftConvolvers.length = t.fftConvolvers.length := by
    have := congrArg Convolver.fftConvolvers he
    simp only [eraseThreads] at this
    rw [this]
  have hs := foldl_threadFunction_eq_visit (List.range s.numThreads) s hf
  have ht := foldl_threadFunction_eq_visit (List.range t.numThreads) t hft
  obtain ⟨a1, a2, a3⟩ := visit_noReset
    ((List.range s.numThreads).flatMap (workerRange s.fftConvolvers.length s.numThreads)) s hf
  obtain ⟨-, -, b3⟩ := visit_noReset
    ((List.range t.numThreads).flatMap (workerRange t.fftConvolvers.length t.numThreads)) t hft
  refine ⟨?_, ?_, ?_, ?_, ?_⟩
  · rcases hT with hT | ⟨h1, h2⟩
    · unfold runThreads
      rw [hs, ht, ← visit_eraseThreads, ← visit_eraseThreads, he, hlen, hT]
    · rw [runThreads_eq_visit s hf h1 hP hTs,
        runThreads_eq_visit t hft h2 (by rw [← hlen]; exact hP) hTt, ← visit_eraseThreads,
        ← visit_eraseThreads, he, hlen]
  · unfold runThreads; rw [hs]; exact a1
  · unfold runThreads; rw [hs]; exact a3
  · unfold runThreads; rw [ht]; exact b3
  · unfold runThreads; rw [hs]; exact a2

theorem getNext_eq (s : Convolver) (buffer : List Int) (length : Nat) :
    getNext s buffer length =
      if length > s.L then (s, buffer, 0)
      else
        match s.fftConvolvers with
        | [] => (s, buffer, length)
        | c0 :: rest =>
          finish (runThreads (stage s (c0.getNext buffer length).1 rest buffer
            (c0.getNext buffer length).2.2)) (c0.getNext buffer length).2.1 buffer
            (c0.getNext buffer length).2.2 := by
  rfl

theorem advance_eraseThreads (s : Convolver) (length : Nat) :
    eraseThreads (advance s length) = advance (eraseThreads s) length := by
  simp only [advance, eraseThreads]
  split_ifs <;> rfl

theorem stage_eraseThreads (s : Convolver) (c0 : FFTConvolver) (rest : List FFTConvolver)
    (buffer : List Int) (length : Nat) :
    eraseThreads (stage s c0 rest buffer length)
        = stage (eraseThreads s) c0 rest buffer length ∧
      (stage s c0 rest buffer length).numThreads = s.numThreads ∧
      (stage s c0 rest buffer length).resetFlag = s.resetFlag ∧
      (stage s c0 rest buffer length).fftConvolvers = c0 :: rest := by
  obtain ⟨-, -, -, -, aT, aF, aR, -⟩ :=
    advance_fields { s with fftConvolvers := c0 :: rest } length
  refine ⟨?_, aT, aR, aF⟩
  have h := advance_eraseThreads { s with fftConvolvers := c0 :: rest } length
  unfold stage
  have e : ({ eraseThreads s with fftConvolvers := c0 :: rest } : Convolver)
      = eraseThreads { s with fftConvolvers := c0 :: rest } := rfl
  rw [e, ← h]
  rfl

theorem finish_eraseThreads (s : Convolver) (fftOut buffer : List Int) (length : Nat) :
    eraseThreads (finish s fftOut buffer length).1
        = (finish (eraseThreads s) fftOut buffer length).1 ∧
      (finish s fftOut buffer length).2 = (finish (eraseThreads s) fftOut buffer length).2 ∧
      (finish s fftOut buffer length).1.numThreads = s.numThreads ∧
      (finish s fftOut buffer length).1.resetFlag = s.resetFlag ∧
      (finish s fftOut buffer length).1.fftConvolvers = s.fftConvolvers :=
  ⟨rfl, rfl, rfl, rfl, rfl⟩

/-- One call on two objects that differ in the number of workers only. -/
theorem getNext_agree (s t : Convolver) (buffer : List Int) (length : Nat)
    (he : eraseThreads s = eraseThreads t) (hf : s.resetFlag = false)
    (hT : s.numThreads = t.numThreads ∨ (1 ≤ s.numThreads ∧ 1 ≤ t.numThreads))
    (hP : s.fftConvolvers.length ≤ 2 ^ 24) (hTs : s.numThreads ≤ 2 ^ 24)
    (hTt : t.numThreads ≤ 2 ^ 24) :
    eraseThreads (getNext s buffer length).1 = eraseThreads (getNext t buffer length).1 ∧
      (getNext s buffer length).2 = (getNext t buffer length).2 ∧
      (getNext s buffer length).1.resetFlag = false ∧
      (getNext s buffer length).1.numThreads = s.numThreads ∧
      (getNext t buffer length).1.numThreads = t.numThreads ∧
      (getNext s buffer length).1.fftConvolvers.length = s.fftConvolvers.length := by
  have hL : s.L = t.L := by
    have := congrArg Convolver.L he
    exact this
  have hc : s.fftConvolvers = t.fftConvolvers := by
    have := congrArg Convolver.fftConvolvers he
    exact this
  rw [getNext_eq s, getNext_eq t, ← hL, ← hc]
  by_cases hrej : length > s.L
  · rw [if_pos hrej, if_pos hrej]
    exact ⟨he, rfl, hf, rfl, rfl, rfl⟩
  · rw [if_neg hrej, if_neg hrej]
    cases hfc : s.fftConvolvers with
    | nil => exact ⟨he, rfl, hf, rfl, rfl, by rw [hfc]⟩
    | cons c0 rest =>
      simp only
      obtain ⟨s1, s2, s3, s4⟩ := stage_eraseThreads s (c0.getNext buffer length).1 rest buffer
        (c0.getNext buffer length).2.2
      obtain ⟨t1, t2, -, -⟩ := stage_eraseThreads t (c0.getNext buffer length).1 rest buffer
        (c0.getNext buffer length).2.2
      have hlen : (stage s (c0.getNext buffer length).1 rest buffer
          (c0.getNext buffer length).2.2).fftConvolvers.length = s.fftConvolvers.length := by
        rw [s4, hfc]
        rfl
      obtain ⟨r1, r2, r3, r4, r5⟩ := runThreads_agree
        (stage s (c0.getNext buffer length).1 rest buffer (c0.getNext buffer length).2.2)
        (stage t (c0.getNext buffer length).1 rest buffer (c0.getNext buffer length).2.2)
        (by rw [s1, t1, he]) (by rw [s3, hf]) (by rw [s2, t2]; exact hT)
        (by rw [hlen]; exact hP) (by rw [s2]; exact hTs) (by rw [t2]; exact hTt)
      obtain ⟨f1, f2, f3, f4, f5⟩ := finish_eraseThreads
        (runThreads
          (stage s (c0.getNext buffer length).1 rest buffer (c0.getNext buffer length).2.2))
        (c0.getNext buffer length).2.1 buffer (c0.getNext buffer length).2.2
      obtain ⟨g1, g2, g3, -, -⟩ := finish_eraseThreads
        (runThreads
          (stage t (c0.getNext buffer length).1 rest buffer (c0.getNext buffer length).2.2))
        (c0.getNext buffer length).2.1 buffer (c0.getNext buffer length).2.2
      refine ⟨?_, ?_, ?_, ?_, ?_, ?_⟩
      · rw [f1, g1, r1]
      · rw [f2, g2, r1]
      · rw [f4, r2]
      · rw [f3, r3, s2]
      · rw [g3, r4, t2]
      · rw [f5, r5, hlen, hfc]

theorem pushBlocks_agree (blocks : List (List Int)) (s t : Convolver)
    (he : eraseThreads s = eraseThreads t) (hf : s.resetFlag = false)
    (hT : s.numThreads = t.numThreads ∨ (1 ≤ s.numThreads ∧ 1 ≤ t.numThreads))
    (hP : s.fftConvolvers.length ≤ 2 ^ 24) (hTs : s.numThreads ≤ 2 ^ 24)
    (hTt : t.numThreads ≤ 2 ^ 24) :
    (pushBlocks s blocks).2 = (pushBlocks t blocks).2 := by
  induction blocks generalizing s t with
  | nil => rfl
  | cons b bs ih =>
    obtain ⟨h1, h2, h3, h4, h5, h6⟩ := getNext_agree s t b b.length he hf hT hP hTs hTt
    unfold pushBlocks
    simp only
    rw [h2, ih _ _ h1 h3 (by rw [h4, h5]; exact hT) (by rw [h6]; exact hP)
      (by rw [h4]; exact hTs) (by rw [h5]; exact hTt)]

theorem new_eraseThreads {c1 c2 : Nat} {ir : List (List Int)} {N irLength : Nat}
    {s1 s2 : Convolver} (h1 : new c1 ir N irLength = some s1)
    (h2 : new c2 ir N irLength = some s2) : eraseThreads s1 = eraseThreads s2 := by
  unfold new at h1 h2
  by_cases k1 : ir.length = 0
  · rw [if_pos k1] at h1
    exact absurd h1 (by simp)
  · rw [if_neg k1] at h1 h2
    by_cases k2 : N / 2 = 0
    · rw [if_pos k2] at h1
      exact absurd h1 (by simp)
    · rw [if_neg k2] at h1 h2
      simp only at h1 h2
      split at h1
      · exact absurd h1 (by simp)
      · rw [if_neg (by assumption)] at h2
        cases h1
        cases h2
        rfl

/-- C6 (as stated, refuted): on the three pure delays a cap of `0` starts no worker, the
partitions 1 and 2 are never convolved, and the blocks returned differ from those with
the cap `MAX_NUM_THREADS = 2`. -/
theorem pushBlocks_cap_zero_differs :
    (new 0 [[1, 0, 0, 0], [0, 1, 0, 0], [0, 0, 1, 0]] 8 12).map
        (fun s => (pushBlocks s [[1, 2, 3, 4], [0, 0, 0, 0], [0, 0, 0, 0], [0, 0, 0, 0]]).2)
      = some [[1, 2, 3, 4], [0, 0, 0, 0], [0, 0, 0, 0], [0, 0, 0, 0]] ∧
    (new 0 [[1, 0, 0, 0], [0, 1, 0, 0], [0, 0, 1, 0]] 8 12).map
        (fun s => (pushBlocks s [[1, 2, 3, 4], [0, 0, 0, 0], [0, 0, 0, 0], [0, 0, 0, 0]]).2)
      ≠ (new MAX_NUM_THREADS [[1, 0, 0, 0], [0, 1, 0, 0], [0, 0, 1, 0]] 8 12).map
        (fun s => (pushBlocks s [[1, 2, 3, 4], [0, 0, 0, 0], [0, 0, 0, 0], [0, 0, 0, 0]]).2) := by
  constructor <;> decide

/-- C6 (amended): for a fixed impulse response of at most `2 ^ 24` segments whose
accumulation buffer covers the reach (`partitionCount * M ≤ bufLength`) and has at most
`2 ^ 30` samples, and a fixed sequence of blocks, the blocks returned by `getNext` are
the same for any two values of the cap that are both at least `1`, and for any two
values at all when there is a single partition.  Under the same conditions no worker
ever writes into the block that the caller adds to and hands back in the same call, so
the order in which workers and caller run within a call does not matter, and the sum
`j + writePosition + i * M` a worker forms stays below `2 ^ 31`. -/
theorem pushBlocks_cap_independent (c1 c2 : Nat) (ir : List (List Int)) (N irLength : Nat)
    (s1 s2 : Convolver) (blocks : List (List Int))
    (hcap : ir.length ≤ 1 ∨ (1 ≤ c1 ∧ 1 ≤ c2))
    (hparts : ir.length ≤ 2 ^ 24)
    (h1 : new c1 ir N irLength = some s1) (h2 : new c2 ir N irLength = some s2)
    (hbuf : s1.fftConvolvers.length * s1.M ≤ s1.bufLength)
    (hint : s1.bufLength ≤ 2 ^ 30) :
    (pushBlocks s1 blocks).2 = (pushBlocks s2 blocks).2 ∧
      ∀ s, Reachable s1 s → ∀ i j, 1 ≤ i → i < s.fftConvolvers.length → j < s.inLength →
        (position s i j < s.writePosition ∨
          s.writePosition + s.inLength ≤ position s i j) ∧
        j + s.writePosition + i * s.M < 2 ^ 31 := by
  obtain ⟨-, -, -, -, a5, -, -, -, -, a10, a11⟩ := new_eq_some h1
  obtain ⟨-, -, -, -, -, -, -, -, -, -, b11⟩ := new_eq_some h2
  have hlen : s1.fftConvolvers.length = ir.length := by rw [a5, List.length_map]
  refine ⟨?_, ?_⟩
  · apply pushBlocks_agree blocks s1 s2 (new_eraseThreads h1 h2) a10
    · rw [a11, b11]
      omega
    · rw [hlen]
      exact hparts
    · rw [a11]
      omega
    · rw [b11]
      omega
  · intro s hs i j hi1 hi hj
    have hw0 := new_wellFormed_of_covers h1 hbuf
    have hw := reachable_wellFormed hw0 hs
    obtain ⟨hb, hm, hl⟩ := reachable_bufLength hw0 hs
    refine ⟨hw.position_outside_block (by rw [hb, hm, hl]; exact hbuf) i j hi1 hi hj, ?_⟩
    have := hw.position_sum_lt i j hi hj
    omega

theorem pushBlocks_cap_independent_witness :
    ([[1, 0, 0, 0], [0, 1, 0, 0], [0, 0, 1, 0]].length ≤ 1 ∨ (1 ≤ 1 ∧ 1 ≤ MAX_NUM_THREADS)) ∧
      [[1, 0, 0, 0], [0, 1, 0, 0], [0, 0, 1, 0]].length ≤ 2 ^ 24 ∧
      new 1 [[1, 0, 0, 0], [0, 1, 0, 0], [0, 0, 1, 0]] 8 12
        = some { pureDelays with numThreads := 1 } ∧
      new MAX_NUM_THREADS [[1, 0, 0, 0], [0, 1, 0, 0], [0, 0, 1, 0]] 8 12 = some pureDelays ∧
      ({ pureDelays with numThreads := 1 } : Convolver).fftConvolvers.length
          * ({ pureDelays with numThreads := 1 } : Convolver).M
        ≤ ({ pureDelays with numThreads := 1 } : Convolver).bufLength ∧
      ({ pureDelays with numThreads := 1 } : Convolver).bufLength ≤ 2 ^ 30 ∧
      (pushBlocks { pureDelays with numThreads := 1 } [[1, 2, 3, 4], [0, 0, 0, 0]]).2
        = (pushBlocks pureDelays [[1, 2, 3, 4], [0, 0, 0, 0]]).2 :=
  ⟨by decide, by decide, by decide, new_pureDelays, by decide, by decide,
    (pushBlocks_cap_independent 1 MAX_NUM_THREADS [[1, 0, 0, 0], [0, 1, 0, 0], [0, 0, 1, 0]] 8 12
      { pureDelays with numThreads := 1 } pureDelays [[1, 2, 3, 4], [0, 0, 0, 0]]
      (by decide) (by decide) (by decide) new_pureDelays (by decide) (by decide)).1⟩

end Convolver
